import Mathlib

/-!
Verification development for the MTD-michif dictionary web UI.

The definitions below are shallow embeddings of the TypeScript / PHP code of
the repository:
  * MtdService (src/projects/mtd/src/app/core/mtd/mtd.service.ts and the
    earlier variant in src/unnamed/part_012): shuffle, getRandom$, getSlice$,
    hasAudio, dataDict$, categories$;
  * BrowseComponent (src/projects/mtd/src/app/pages/browse/browse/
    browse.component.ts): route-parameter clamping, getXFrom, letterInit;
  * the levenstein helper of the entry-list component (src/unnamed/part_009);
  * the PHP report endpoint appended to src/projects/mtd/src/assets/js/config.js
    (the origin-checking variant);
  * the favourited membership test of the word-modal component
    (src/unnamed/part_011).

JavaScript machine integers do not overflow in any of the embedded code
(all quantities are small array lengths and indices), so Nat/Int are used
directly.
-/

/-- One audio attachment of a dictionary entry (filename is the only field the
embedded code inspects; a JS-truthy filename is a nonempty string). -/
structure AudioFile where
  filename : String
  speaker : String := ""
  deriving DecidableEq, Repr

/-- A dictionary entry (DictionaryData).  The fields are the ones the embedded
operations read.  `audio` is `none` when the JS record has no audio property
(the code checks membership with the `in` operator); when present it is the
array of attachments.  `theme` is `none` when absent.  `firstWordIndex` models
the property that letterInit adds dynamically to entry records (absent on
loaded data, hence default `none`). -/
structure Entry where
  word : String := ""
  definition : String := ""
  sorting_form : List Nat := []
  source : String := ""
  theme : Option String := none
  audio : Option (List AudioFile) := none
  firstWordIndex : Option Nat := none
  deriving DecidableEq, Repr

/-- First element of the sorting form, the quantity the sort comparator in
dataDict$ subtracts (a.sorting_form[0] - b.sorting_form[0]).  Entries are
assumed to carry a nonempty sorting_form (the spec makes an absent
sorting_form a load-time validation error), so the default is irrelevant. -/
def sf0 (e : Entry) : Nat := e.sorting_form.headD 0

/-- The ordering the dataDict$ comparator induces: by first sorting-form
element only. -/
def dictLe (a b : Entry) : Prop := sf0 a ≤ sf0 b

instance : DecidableRel dictLe := fun a b => Nat.decLe _ _

instance : IsTotal Entry dictLe := ⟨fun a b => Nat.le_total _ _⟩

instance : IsTrans Entry dictLe := ⟨fun _ _ _ => Nat.le_trans⟩

/-- dataDict$ : entries.sort((a, b) => a.sorting_form[0] - b.sorting_form[0]).
JavaScript Array.prototype.sort is stable (ES2019) and a subtraction
comparator orders by the subtracted key, so the result is the stable sort of
the collection by `sf0`; insertion sort realizes exactly that ordering. -/
def dictSort (entries : List Entry) : List Entry :=
  List.insertionSort dictLe entries

/-- Modelled from the spec: lexicographic strict order on integer sequences,
the order the spec says sortedEntries uses on full sortingForm sequences
("compared element-wise as integer sequences"). -/
def lexLtSeq : List Nat → List Nat → Bool
  | [], [] => false
  | [], _ :: _ => true
  | _ :: _, [] => false
  | a :: as, b :: bs => if a < b then true else if b < a then false else lexLtSeq as bs

/-- The list [f j0, f (j0+1), ..., f (j0+k-1)] — helper for expressing rows of
the levenstein dynamic-programming matrix. -/
def colList (f : Nat → Nat) : Nat → Nat → List Nat
  | _, 0 => []
  | j0, k + 1 => f j0 :: colList f (j0 + 1) k

/-- Inner loop of levenstein (src/unnamed/part_009, lines 33-43): computes the
next matrix row from the previous one.  The first list holds the remaining
characters of a (the string indexed by j), the second the remaining suffix of
the previous row (so its head is the diagonal neighbour m[i-1][j-1] and the
next element the upper neighbour m[i-1][j]), and `left` is the entry just
written in the current row (m[i][j-1]).
  m[i][j] = b[i-1] === a[j-1] ? m[i-1][j-1]
          : min(m[i-1][j-1]+1, min(m[i][j-1]+1, m[i-1][j]+1)). -/
def buildRow (y : Char) : List Char → List Nat → Nat → List Nat
  | [], _, _ => []
  | x :: xs, diag :: up :: rest, left =>
    let cur := if y = x then diag else min (diag + 1) (min (left + 1) (up + 1))
    cur :: buildRow y xs (up :: rest) cur
  | _ :: _, _, _ => []

/-- Outer loop of levenstein (the `for (i = 1; i <= b.length; i++)` loop):
folds buildRow over the characters of b, threading the current row.  `i` is
the number of characters of b already consumed; each new row starts with its
left border value i+1 (the code's `m[i] = [i++]` first column). -/
def levLoop (a : List Char) : List Char → Nat → List Nat → List Nat
  | [], _, prev => prev
  | y :: ys, i, prev => levLoop a ys (i + 1) ((i + 1) :: buildRow y a prev (i + 1))

/-- The levenstein function of src/unnamed/part_009 (lines 21-46), on strings
as character lists.  Guard: if (!(a && b)) return (b || a).length; then the
dynamic program over a (b.length+1) x (a.length+1) matrix, returning
m[b.length][a.length].  The first row is [0, 1, ..., a.length]. -/
def levenstein (a b : List Char) : Nat :=
  if a = [] ∨ b = [] then (if b ≠ [] then b.length else a.length)
  else (levLoop a b 0 (colList (fun j => j) 0 (a.length + 1))).getD a.length 0

/-- Modelled from the spec: the reference dynamic-programming Levenshtein
definition (Wagner-Fischer), "minimum number of single-character insertions,
deletions, and substitutions".  `levSpecIdx a b i j` is the distance between
the first i characters of b and the first j characters of a (the orientation
of the source matrix). -/
def levSpecIdx (a b : List Char) : Nat → Nat → Nat
  | 0, j => j
  | i + 1, 0 => i + 1
  | i + 1, j + 1 =>
    if b.getD i ' ' = a.getD j ' ' then levSpecIdx a b i j
    else
      min (levSpecIdx a b i j + 1)
        (min (levSpecIdx a b (i + 1) j + 1) (levSpecIdx a b i (j + 1) + 1))

/-- Modelled from the spec: the classic Levenshtein distance between a and b
(the full-prefix instance of levSpecIdx). -/
def levenshteinSpec (a b : List Char) : Nat :=
  levSpecIdx a b b.length a.length

/-- arr[i], arr[j] = arr[j], arr[i] on a JS array, as the shuffle loop performs
it: exchange the elements at positions i and j (identity when either index is
out of range; the shuffle only ever uses in-range indices). -/
def swapList (l : List Entry) (i j : Nat) : List Entry :=
  match l[i]?, l[j]? with
  | some a, some b => (l.set i b).set j a
  | _, _ => l

/-- The while (--top) loop of MtdService.shuffle: for top = len-1 down to 1,
swap position top with a random position in [0, top].  `rand` is the stream of
Math.random draws, one per iteration, already scaled: the code computes
Math.floor(Math.random() * (top + 1)), a value in [0, top], modelled as
rand top % (top + 1). -/
def shuffleGo (rand : Nat → Nat) : Nat → List Entry → List Entry
  | 0, l => l
  | t + 1, l => shuffleGo rand t (swapList l (rand (t + 1) % (t + 2)) (t + 1))

/-- MtdService.shuffle (mtd.service.ts lines 33-47): copy the array
(array.map(x => x)), then Fisher-Yates over the copy; if (top) guards the
empty collection. -/
def jsShuffle (rand : Nat → Nat) (l : List Entry) : List Entry :=
  let copy := l.map (fun x => x)
  if copy.length = 0 then copy else shuffleGo rand (copy.length - 1) copy

/-- getRandom$(no_random): shuffle the collection and slice(0, no_random). -/
def getRandom (rand : Nat → Nat) (no_random : Nat) (l : List Entry) : List Entry :=
  (jsShuffle rand l).take no_random

/-- getSlice$(start_index, no_slice): x.slice(start_index, start_index +
no_slice) — a contiguous window, no mutation of x. -/
def getSlice (start_index no_slice : Nat) (l : List Entry) : List Entry :=
  (l.drop start_index).take no_slice

/-- The clamp the BrowseComponent constructor applies to the requested start
route parameter (browse.component.ts lines 45-49):
Math.max(0, Math.min(start, length - 1)), over JS numbers, so for an empty
collection length - 1 is -1 and the clamp yields 0. -/
def clampStart (start : Int) (len : Nat) : Int :=
  max 0 (min start ((len : Int) - 1))

/-- BrowseComponent.getXFrom(i, entries, x) = entries.slice(i, i + x). -/
def getXFrom (i : Nat) (entries : List Entry) (x : Nat) : List Entry :=
  (entries.drop i).take x

/-- MtdService.hasAudio: false when the record has no audio property; when
audio is an array, true iff some attachment has a truthy (nonempty)
filename. -/
def hasAudio (e : Entry) : Bool :=
  match e.audio with
  | none => false
  | some files => (files.filter (fun f => f.filename != "")).length != 0

/-- lodash uniq: first occurrence of each value, in encounter order.  The
`seen` accumulator holds the values already emitted. -/
def uniqAux [BEq α] : List α → List α → List α
  | [], _ => []
  | x :: xs, seen =>
    if seen.contains x then uniqAux xs seen else x :: uniqAux xs (x :: seen)

def ljUniq [BEq α] (l : List α) : List α := uniqAux l []

/-- String.prototype.toLowerCase, character-wise. -/
def jsToLower (s : String) : String := ⟨s.data.map Char.toLower⟩

/-- The value the semantic_categories mapping callback produces for an entry
(categories$): entry.theme.toLowerCase() when theme is a truthy string,
undefined (none) otherwise. -/
def themeVal (e : Entry) : Option String :=
  match e.theme with
  | some t => if t = "" then none else some (jsToLower t)
  | none => none

/-- JS default array sort comparator order on the uniq'd theme values:
strings in lexicographic order, undefined values last.  (The claims never
depend on the relative order of distinct keys; this is kept for fidelity.) -/
def optLeB : Option String → Option String → Bool
  | none, none => true
  | none, some _ => false
  | some _, none => true
  | some s, some t => s ≤ t

/-- A JS object used as a string-keyed map: an insertion-ordered association
list; assignment overwrites an existing key in place or appends a new one. -/
def setKey (m : List (String × List Entry)) (k : String) (v : List Entry) :
    List (String × List Entry) :=
  if m.any (fun p => p.1 == k) then
    m.map (fun p => if p.1 == k then (k, v) else p)
  else m ++ [(k, v)]

/-- categories[key] lookup. -/
def getKey (m : List (String × List Entry)) (k : String) : Option (List Entry) :=
  (m.find? (fun p => p.1 == k)).map (fun p => p.2)

/-- The first loop of categories$: one key per distinct source value, mapping
to the entries with that source. -/
def addSourceKeys (entries : List Entry) :
    List String → List (String × List Entry) → List (String × List Entry)
  | [], m => m
  | k :: ks, m =>
    addSourceKeys entries ks (setKey m k (entries.filter (fun x => x.source == k)))

/-- The second loop of categories$: for each (sorted, uniq'd) semantic
category value, skipping falsy ones (undefined and the empty string), a key
mapping to the entries whose theme is strictly equal (===) to the lowercased
category value. -/
def addThemeKeys (entries : List Entry) :
    List (Option String) → List (String × List Entry) → List (String × List Entry)
  | [], m => m
  | none :: cs, m => addThemeKeys entries cs m
  | some c :: cs, m =>
    addThemeKeys entries cs
      (if c = "" then m else setKey m c (entries.filter (fun e => e.theme == some c)))

/-- categories$ of MtdService (mtd.service.ts lines 102-139), parameterized by
the META.browseAudio flag (config/config.ts is not part of the sources, so the
flag is left abstract).  Keys by source, then by lowercase theme, then the
conditional audio pseudo-category: audioEntries.length > 0 &&
(audioEntries.length < entries.length * 0.75 || META.browseAudio); the float
comparison n < N * 0.75 is exact and equals 4n < 3N. -/
def categories (browseAudio : Bool) (entries : List Entry) :
    List (String × List Entry) :=
  let m0 := addSourceKeys entries (ljUniq (entries.map (fun x => x.source))) []
  let semantic :=
    List.insertionSort (fun a b => optLeB a b = true)
      (ljUniq (entries.map themeVal))
  let m1 := addThemeKeys entries semantic m0
  let audioEntries := entries.filter hasAudio
  if 0 < audioEntries.length ∧
      (4 * audioEntries.length < 3 * entries.length ∨ browseAudio = true) then
    setKey m1 "audio" audioEntries
  else m1

/-- Mark the first entry whose leading sorting index is ind with
firstWordIndex = ind, as the inner loop of BrowseComponent.letterInit does
(entry.firstWordIndex = ind; break). -/
def markFirst (ind : Nat) : List Entry → List Entry
  | [] => []
  | e :: es =>
    if e.sorting_form.head? == some ind then
      { e with firstWordIndex := some ind } :: es
    else e :: markFirst ind es

/-- BrowseComponent.letterInit (browse.component.ts lines 107-125), as a state
transformer on the entry collection: for each alphabet letter (ind = its
index), if some entry starts with it, push the letter and annotate the first
such entry in place.  Returns (newLetters, entries after annotation). -/
def letterInit (letters : List String) (entries : List Entry) :
    List String × List Entry :=
  letters.foldl
    (fun acc letter =>
      let ind := letters.indexOf letter
      if acc.2.any (fun e => e.sorting_form.head? == some ind) then
        (acc.1 ++ [letter], markFirst ind acc.2)
      else acc)
    ([], entries)

/-- dataDict$ as a state transformer: entries.sort(...) sorts the
BehaviorSubject's array in place and returns the same (now reordered) array
reference, so the post-state equals the emitted value. -/
def dataDictState (entries : List Entry) : List Entry × List Entry :=
  (dictSort entries, dictSort entries)

/-- getSlice$ as a state transformer: slice copies, the snapshot is
unchanged. -/
def getSliceState (start_index no_slice : Nat) (entries : List Entry) :
    List Entry × List Entry :=
  (getSlice start_index no_slice entries, entries)

/-- getRandom$ (mtd.service.ts variant) as a state transformer: shuffle
operates on array.map(x => x), a fresh copy, so the snapshot is unchanged. -/
def getRandomState (rand : Nat → Nat) (no_random : Nat) (entries : List Entry) :
    List Entry × List Entry :=
  (getRandom rand no_random entries, entries)

/-- categories$ as a state transformer: the category partition builds a fresh
object out of uniq/filter/map results and never writes to the snapshot array
or to an entry, so the snapshot is unchanged. -/
def categoriesState (browseAudio : Bool) (entries : List Entry) :
    List (String × List Entry) × List Entry :=
  (categories browseAudio entries, entries)

/-- Erase the letterInit annotation, for stating that letterInit changes
nothing else. -/
def clearFwi (e : Entry) : Entry := { e with firstWordIndex := none }

/-- "The first entry whose leading sorting index is ind carries the letterInit
annotation": the entry at the first position matching ind has
firstWordIndex = some ind (false when no entry matches, since the lookup is
then out of range). -/
def firstMarked (ind : Nat) (es : List Entry) : Prop :=
  (es[es.findIdx (fun e => e.sorting_form.head? == some ind)]?).map
    Entry.firstWordIndex = some (some ind)

/-- A request to the PHP report endpoint (the origin-checking variant appended
to assets/js/config.js): the Origin header and the id, word, desc and url
query parameters, each possibly absent. -/
structure ReportReq where
  origin : Option String := none
  id : Option String := none
  word : Option String := none
  desc : Option String := none
  url : Option String := none
  deriving DecidableEq, Repr

/-- The two origins the endpoint allows. -/
def allowedOrigins : List String :=
  ["https://michif.ecolingui.ca", "https://dictionary.michif.org"]

/-- The report endpoint (origin-checking variant): no Origin header → 401 and
no mail; Origin outside the allow-list → 401 and no mail; allowed Origin but
no id parameter → 400 and no mail; otherwise mail to the fixed maintainer
address (urlencoding of the id in the subject line is not modelled) and the
default 200 status.  Result: (HTTP status, the sent mail as (recipient,
subject) if any). -/
def reportEndpoint (r : ReportReq) : Nat × Option (String × String) :=
  match r.origin with
  | none => (401, none)
  | some o =>
    if o = "https://michif.ecolingui.ca" ∨ o = "https://dictionary.michif.org" then
      match r.id with
      | none => (400, none)
      | some i =>
        let subject := "Review entry " ++ i ++
          (match r.word with | some w => " (" ++ w ++ ")" | none => "")
        (200, some ("dictionary@p2wilr.org", subject))
    else (401, none)

/-- An in-memory JS entry object for the bookmark model: `ref` is the object
identity (two structurally identical objects created separately have distinct
refs), `entry_id` the stable persisted identifier. -/
structure EntryObj where
  ref : Nat
  entry_id : String
  word : String := ""
  deriving DecidableEq, Repr

/-- Array.prototype.indexOf with strict equality; on objects, strict equality
is reference identity, i.e. equality of `ref`. -/
def jsIndexOf (l : List EntryObj) (e : EntryObj) : Int :=
  match l with
  | [] => -1
  | x :: xs =>
    if x.ref = e.ref then 0
    else
      let r := jsIndexOf xs e
      if r = -1 then -1 else r + 1

/-- WordModalComponent.favourited (src/unnamed/part_011 lines 178-180):
this.bookmarkService.bookmarks.value.indexOf(entry) > -1. -/
def favourited (bookmarks : List EntryObj) (e : EntryObj) : Bool :=
  jsIndexOf bookmarks e > -1

theorem dictSort_perm (entries : List Entry) :
    List.Perm (dictSort entries) entries :=
  List.perm_insertionSort dictLe entries

theorem dictSort_sorted (entries : List Entry) :
    List.Pairwise dictLe (dictSort entries) :=
  List.sorted_insertionSort dictLe entries

/-- orderedInsert commutes with filtering by a predicate that the inserted
element's failure to be ≼ b rules out sharing with b (used with key-equality
predicates, where x having the key and key b < key x forces b not to have
it). -/
theorem filter_orderedInsert (r : Entry → Entry → Prop) [DecidableRel r]
    (p : Entry → Bool)
    (x : Entry) (hp : ∀ b, ¬ r x b → p x = true → p b = false) :
    ∀ m : List Entry, (List.orderedInsert r x m).filter p =
      if p x then x :: m.filter p else m.filter p := by
  intro m
  induction m with
  | nil => cases hpx : p x <;> simp [List.orderedInsert, List.filter, hpx]
  | cons b m ih =>
    by_cases hrb : r x b
    · simp only [List.orderedInsert, if_pos hrb]
      by_cases hx : p x = true
      · simp [List.filter, hx]
      · simp [List.filter, hx]
    · simp only [List.orderedInsert, if_neg hrb]
      by_cases hx : p x = true
      · have hb : p b = false := hp b hrb hx
        simp [List.filter_cons, hb, ih, hx]
      · simp [List.filter_cons, ih, hx]

/-- Stability of insertionSort with respect to key-based filters: filtering the
sorted list by any predicate compatible with the order (in the sense of
filter_orderedInsert) gives the filter of the original list, i.e. equal-key
entries keep their relative order. -/
theorem filter_insertionSort (r : Entry → Entry → Prop) [DecidableRel r]
    (p : Entry → Bool)
    (hp : ∀ x b, ¬ r x b → p x = true → p b = false) :
    ∀ l : List Entry, (List.insertionSort r l).filter p = l.filter p := by
  intro l
  induction l with
  | nil => rfl
  | cons x l ih =>
    simp only [List.insertionSort]
    rw [filter_orderedInsert r p x (hp x)]
    by_cases hx : p x = true
    · simp [List.filter_cons, hx, ih]
    · simp [List.filter_cons, hx, ih]

/-- C1 — For every entry collection, dataDict$ produces a permutation of the
input ordered by the FIRST element of sorting_form, stable for equal first
elements (stability expressed as: filtering by any first-element value
preserves the original order).  [Amended from full-sequence lexicographic
comparison, which the comparator does not perform.] -/
theorem dataDict_sorted_amended (entries : List Entry) :
    List.Perm (dictSort entries) entries ∧
    List.Pairwise dictLe (dictSort entries) ∧
    ∀ k : Nat, (dictSort entries).filter (fun e => sf0 e == k) =
      entries.filter (fun e => sf0 e == k) := by
  refine ⟨dictSort_perm entries, dictSort_sorted entries, fun k => ?_⟩
  apply filter_insertionSort
  intro x b hxb hx
  have hbx : sf0 b < sf0 x := Nat.lt_of_not_le hxb
  have hxk : sf0 x = k := by simpa using hx
  simp only [beq_eq_false_iff_ne, ne_eq]
  omega

/-- C1 counterexample — two entries with equal first sorting-form elements but
lexicographically ordered tails: the code keeps the original order
[sf [0,1], sf [0,0]], yet full lexicographic comparison demands [0,0] before
[0,1]; so the output is not ordered by full-sequence lexicographic
comparison. -/
theorem dataDict_not_full_lex :
    dictSort [{ sorting_form := [0, 1] }, { sorting_form := [0, 0] }] =
      [{ sorting_form := [0, 1] }, { sorting_form := [0, 0] }] ∧
    lexLtSeq [0, 0] [0, 1] = true := by
  constructor
  · rfl
  · rfl

theorem colList_congr (f g : Nat → Nat) (h : ∀ m, f m = g m) :
    ∀ (k j0 : Nat), colList f j0 k = colList g j0 k := by
  intro k
  induction k with
  | zero => intro j0; rfl
  | succ k ih => intro j0; simp [colList, h j0, ih (j0 + 1)]

theorem colList_getD (f : Nat → Nat) :
    ∀ (k j0 idx : Nat), idx < k → (colList f j0 k).getD idx 0 = f (j0 + idx) := by
  intro k
  induction k with
  | zero => intro j0 idx h; omega
  | succ k ih =>
    intro j0 idx h
    match idx with
    | 0 => simp [colList]
    | idx + 1 =>
      have h' : idx < k := by omega
      have := ih (j0 + 1) idx h'
      simp only [colList, List.getD_cons_succ, this]
      congr 1
      omega

theorem drop_getD_cons :
    ∀ (a : List Char) (j0 : Nat), j0 < a.length →
      a.drop j0 = a.getD j0 ' ' :: a.drop (j0 + 1) := by
  intro a
  induction a with
  | nil => intro j0 h; simp at h
  | cons x xs ih =>
    intro j0 h
    match j0 with
    | 0 => rfl
    | k + 1 =>
      have h' : k < xs.length := by simpa using h
      simpa using ih k h'

theorem levSpecIdx_zero_right (a b : List Char) :
    ∀ i : Nat, levSpecIdx a b i 0 = i := by
  intro i
  match i with
  | 0 => simp [levSpecIdx]
  | i + 1 => simp [levSpecIdx]

theorem buildRow_spec (a b : List Char) (i : Nat) :
    ∀ (k j0 : Nat), j0 + k = a.length →
      buildRow (b.getD i ' ') (a.drop j0)
          (colList (levSpecIdx a b i) j0 (k + 1)) (levSpecIdx a b (i + 1) j0)
        = colList (levSpecIdx a b (i + 1)) (j0 + 1) k := by
  intro k
  induction k with
  | zero =>
    intro j0 hj
    have hdrop : a.drop j0 = [] := by
      apply List.drop_eq_nil_of_le
      omega
    simp [hdrop, colList, buildRow]
  | succ k ih =>
    intro j0 hj
    have hj0 : j0 < a.length := by omega
    rw [drop_getD_cons a j0 hj0]
    show buildRow (b.getD i ' ') (a.getD j0 ' ' :: a.drop (j0 + 1))
        (levSpecIdx a b i j0 :: levSpecIdx a b i (j0 + 1) ::
          colList (levSpecIdx a b i) (j0 + 2) k)
        (levSpecIdx a b (i + 1) j0)
      = levSpecIdx a b (i + 1) (j0 + 1) ::
          colList (levSpecIdx a b (i + 1)) (j0 + 2) k
    rw [buildRow]
    have hcur :
        (if b.getD i ' ' = a.getD j0 ' ' then levSpecIdx a b i j0
          else min (levSpecIdx a b i j0 + 1)
            (min (levSpecIdx a b (i + 1) j0 + 1) (levSpecIdx a b i (j0 + 1) + 1)))
        = levSpecIdx a b (i + 1) (j0 + 1) := by
      rw [levSpecIdx]
    rw [hcur]
    have ih' := ih (j0 + 1) (by omega)
    rw [show j0 + 1 + 1 = j0 + 2 from rfl] at ih'
    rw [← ih']
    congr 1

theorem levLoop_spec (a b : List Char) :
    ∀ (ys : List Char) (i : Nat), ys = b.drop i → i ≤ b.length →
      levLoop a ys i (colList (levSpecIdx a b i) 0 (a.length + 1))
        = colList (levSpecIdx a b b.length) 0 (a.length + 1) := by
  intro ys
  induction ys with
  | nil =>
    intro i hdrop hle
    have : b.length ≤ i := by
      have := congrArg List.length hdrop
      simp at this
      omega
    have hi : i = b.length := by omega
    rw [levLoop, hi]
  | cons y ys ih =>
    intro i hdrop hle
    have hlt : i < b.length := by
      have := congrArg List.length hdrop
      simp at this
      omega
    have hcons := drop_getD_cons b i hlt
    rw [← hdrop] at hcons
    have hy : y = b.getD i ' ' := by
      exact (List.cons.injEq _ _ _ _ ▸ hcons).1
    have hys : ys = b.drop (i + 1) := by
      exact (List.cons.injEq _ _ _ _ ▸ hcons).2
    rw [levLoop]
    have hrow := buildRow_spec a b i a.length 0 (by omega)
    simp only [List.drop_zero] at hrow
    have hleft : levSpecIdx a b (i + 1) 0 = i + 1 := levSpecIdx_zero_right a b (i + 1)
    rw [hleft] at hrow
    rw [hy, hrow]
    have hhead : (i + 1) = levSpecIdx a b (i + 1) 0 := (levSpecIdx_zero_right a b (i + 1)).symm
    have hnew : (i + 1) :: colList (levSpecIdx a b (i + 1)) 1 a.length
        = colList (levSpecIdx a b (i + 1)) 0 (a.length + 1) := by
      rw [colList]
      rw [← hhead]
    rw [hnew]
    exact ih (i + 1) hys (by omega)

theorem levenstein_eq_spec (a b : List Char) :
    levenstein a b = levenshteinSpec a b := by
  by_cases hg : a = [] ∨ b = []
  · rcases hg with ha | hb
    · subst ha
      by_cases hb : b = []
      · subst hb; simp [levenstein, levenshteinSpec, levSpecIdx_zero_right]
      · simp [levenstein, hb, levenshteinSpec, levSpecIdx_zero_right]
    · subst hb
      by_cases ha : a = []
      · subst ha; simp [levenstein, levenshteinSpec, levSpecIdx_zero_right]
      · simp [levenstein, ha, levenshteinSpec, levSpecIdx]
  · push_neg at hg
    obtain ⟨ha, hb⟩ := hg
    rw [levenstein, if_neg (by simp [ha, hb])]
    have hfirst : colList (fun j => j) 0 (a.length + 1)
        = colList (levSpecIdx a b 0) 0 (a.length + 1) := by
      apply colList_congr
      intro m
      simp [levSpecIdx]
    rw [hfirst, levLoop_spec a b b 0 (by simp) (by omega)]
    rw [colList_getD (levSpecIdx a b b.length) (a.length + 1) 0 a.length (by omega)]
    simp [levenshteinSpec]

theorem levSpecIdx_symm (a b : List Char) :
    ∀ i j : Nat, levSpecIdx a b i j = levSpecIdx b a j i := by
  intro i
  induction i with
  | zero =>
    intro j
    simp [levSpecIdx, levSpecIdx_zero_right]
  | succ i ihi =>
    intro j
    induction j with
    | zero => simp [levSpecIdx, levSpecIdx_zero_right]
    | succ j ihj =>
      rw [levSpecIdx, levSpecIdx]
      by_cases h : b.getD i ' ' = a.getD j ' '
      · rw [if_pos h, if_pos h.symm, ihi j]
      · rw [if_neg h, if_neg (fun hc => h hc.symm)]
        rw [ihi j, ihi (j + 1), ihj]
        omega

/-- C7 counterexample — the claim asserts levenstein("teh", "the") = 1, but
the function (correctly implementing the classic distance, which has no
transposition operation) returns 2, so a threshold of 1 does not admit the
match. -/
theorem levenstein_teh_the_is_two :
    levenstein ['t', 'e', 'h'] ['t', 'h', 'e'] = 2 ∧
    ¬ levenstein ['t', 'e', 'h'] ['t', 'h', 'e'] = 1 :=
  ⟨by decide, by decide⟩

/-- C7 (amended) — The levenstein function computes the classic
(Wagner-Fischer) Levenshtein edit distance for all inputs; in particular the
distance between "teh" and "the" is 2 (a transposition counts as two
single-character edits), so a threshold of 2 admits the match and a threshold
of 1 does not. -/
theorem levenstein_correct :
    (∀ a b : List Char, levenstein a b = levenshteinSpec a b) ∧
    levenstein ['t', 'e', 'h'] ['t', 'h', 'e'] = 2 ∧
    levenstein ['t', 'e', 'h'] ['t', 'h', 'e'] ≤ 2 ∧
    ¬ levenstein ['t', 'e', 'h'] ['t', 'h', 'e'] ≤ 1 :=
  ⟨levenstein_eq_spec, by decide, by decide, by decide⟩

/-- C10 — levenstein is symmetric in its two arguments, and on an empty
argument it returns the length of the other. -/
theorem levenstein_symm :
    (∀ a b : List Char, levenstein a b = levenstein b a) ∧
    (∀ a : List Char, levenstein a [] = a.length ∧ levenstein [] a = a.length) := by
  constructor
  · intro a b
    rw [levenstein_eq_spec, levenstein_eq_spec]
    unfold levenshteinSpec
    exact levSpecIdx_symm a b b.length a.length
  · intro a
    constructor
    · simp [levenstein]
    · by_cases ha : a = []
      · subst ha; simp [levenstein]
      · simp [levenstein, ha]

/-- C2 — Any request without an Origin header, or with an Origin outside the
allow-list, gets status 401 and no mail is sent; any request with an allowed
Origin but no id parameter gets status 400 and no mail is sent. -/
theorem reportEndpoint_rejects (r : ReportReq) :
    (r.origin = none → reportEndpoint r = (401, none)) ∧
    (∀ o, r.origin = some o → o ∉ allowedOrigins → reportEndpoint r = (401, none)) ∧
    (∀ o, r.origin = some o → o ∈ allowedOrigins → r.id = none →
      reportEndpoint r = (400, none)) := by
  refine ⟨fun h => ?_, fun o ho hno => ?_, fun o ho hmem hid => ?_⟩
  · simp [reportEndpoint, h]
  · have h1 : ¬ (o = "https://michif.ecolingui.ca" ∨ o = "https://dictionary.michif.org") := by
      simpa [allowedOrigins] using hno
    simp [reportEndpoint, ho, h1]
  · have h1 : o = "https://michif.ecolingui.ca" ∨ o = "https://dictionary.michif.org" := by
      simpa [allowedOrigins] using hmem
    simp [reportEndpoint, ho, h1, hid]

/-- C2 witness — concrete requests for each branch: no origin, a disallowed
origin, and an allowed origin without an id. -/
theorem reportEndpoint_rejects_witness :
    reportEndpoint { id := some "42" } = (401, none) ∧
    reportEndpoint { origin := some "https://evil.example", id := some "42" } = (401, none) ∧
    reportEndpoint { origin := some "https://michif.ecolingui.ca" } = (400, none) := by
  refine ⟨?_, ?_, ?_⟩
  · exact (reportEndpoint_rejects { id := some "42" }).1 rfl
  · exact (reportEndpoint_rejects { origin := some "https://evil.example", id := some "42" }).2.1
      "https://evil.example" rfl (by decide)
  · exact (reportEndpoint_rejects { origin := some "https://michif.ecolingui.ca" }).2.2
      "https://michif.ecolingui.ca" rfl (by decide) rfl

/-- C4 — For a non-empty collection and any requested start, the clamp lands
in [0, length-1]; with a positive window size the resulting slice is
non-empty; a start beyond length-1 clamps to length-1; and for an empty
collection the clamp is 0 (and only then may the slice be empty). -/
theorem browse_clamp_window (entries : List Entry) (start : Int) (x : Nat)
    (hne : entries ≠ []) (hx : 0 < x) :
    0 ≤ clampStart start entries.length ∧
    clampStart start entries.length ≤ (entries.length : Int) - 1 ∧
    getXFrom (clampStart start entries.length).toNat entries x ≠ [] ∧
    ((entries.length : Int) - 1 < start →
      clampStart start entries.length = (entries.length : Int) - 1) ∧
    clampStart start 0 = 0 := by
  have hlen : 0 < entries.length := List.length_pos.mpr hne
  have h0 : (0 : Int) ≤ clampStart start entries.length := le_max_left _ _
  have h1 : clampStart start entries.length ≤ (entries.length : Int) - 1 := by
    unfold clampStart
    have : (0 : Int) ≤ (entries.length : Int) - 1 := by omega
    omega
  refine ⟨h0, h1, ?_, ?_, ?_⟩
  · have htn : (clampStart start entries.length).toNat < entries.length := by omega
    unfold getXFrom
    intro hempty
    have := congrArg List.length hempty
    simp [List.length_take, List.length_drop] at this
    omega
  · intro hbeyond
    unfold clampStart
    omega
  · unfold clampStart
    omega

/-- C4 witness — a two-element collection, a requested start of 5 and window
8: the clamp yields 1 and the slice [entries[1]] is non-empty. -/
theorem browse_clamp_window_witness :
    ([{ word := "a" }, { word := "b" }] : List Entry) ≠ [] ∧ 0 < 8 ∧
    getXFrom (clampStart 5 2).toNat [{ word := "a" }, { word := "b" }] 8 ≠ [] := by
  refine ⟨by decide, by decide, ?_⟩
  exact (browse_clamp_window [{ word := "a" }, { word := "b" }] 5 8
    (by decide) (by decide)).2.2.1

/-- C9 — the code evaluated at the failing input: a bookmarks list holding the
original entry object (ref 0, id "w1") and a recreated instance of the same
entry (ref 1, same id "w1"): favourited reports the original bookmarked but
the recreated instance not bookmarked, because indexOf compares object
references, not the stable id. -/
theorem favourited_object_identity :
    favourited [{ ref := 0, entry_id := "w1" }] { ref := 0, entry_id := "w1" } = true ∧
    favourited [{ ref := 0, entry_id := "w1" }] { ref := 1, entry_id := "w1" } = false := by
  exact ⟨by decide, by decide⟩

theorem swapList_length (l : List Entry) (i j : Nat) :
    (swapList l i j).length = l.length := by
  unfold swapList
  cases hi : l[i]? <;> cases hj : l[j]? <;> simp

theorem swapList_perm (l : List Entry) (i j : Nat)
    (hi : i < l.length) (hj : j < l.length) :
    List.Perm (swapList l i j) l := by
  rw [List.perm_iff_count]
  intro x
  have hi' : l[i]? = some l[i] := List.getElem?_eq_getElem hi
  have hj' : l[j]? = some l[j] := List.getElem?_eq_getElem hj
  unfold swapList
  rw [hi', hj']
  have hj2 : j < (l.set i l[j]).length := by simpa using hj
  rw [List.count_set _ _ _ _ hj2, List.count_set _ _ _ _ hi]
  have hset : (l.set i l[j])[j] = if i = j then l[j] else l[j] := by
    rw [List.getElem_set]
  have hset' : (l.set i l[j])[j] = l[j] := by
    rw [hset]; simp
  rw [hset']
  have hmi : l[i] ∈ l := List.getElem_mem hi
  have hmj : l[j] ∈ l := List.getElem_mem hj
  by_cases e1 : l[i] = x <;> by_cases e2 : l[j] = x
  · have c1 : 0 < l.count x := List.count_pos_iff.mpr (e1 ▸ hmi)
    simp [e1, e2]
    omega
  · have c1 : 0 < l.count x := List.count_pos_iff.mpr (e1 ▸ hmi)
    simp only [beq_iff_eq, e1, e2, if_true, if_false, if_neg e2, if_pos e1]
    omega
  · have c2 : 0 < l.count x := List.count_pos_iff.mpr (e2 ▸ hmj)
    simp only [beq_iff_eq, if_neg e1, if_pos e2]
    omega
  · simp only [beq_iff_eq, if_neg e1, if_neg e2]
    omega

theorem shuffleGo_perm (rand : Nat → Nat) :
    ∀ (t : Nat) (l : List Entry), t < l.length →
      List.Perm (shuffleGo rand t l) l := by
  intro t
  induction t with
  | zero => intro l _; rw [shuffleGo]
  | succ t ih =>
    intro l h
    rw [shuffleGo]
    have hid : rand (t + 1) % (t + 2) < l.length := by
      have : rand (t + 1) % (t + 2) < t + 2 := Nat.mod_lt _ (by omega)
      omega
    have hswap := swapList_perm l (rand (t + 1) % (t + 2)) (t + 1) hid h
    have hlen : t < (swapList l (rand (t + 1) % (t + 2)) (t + 1)).length := by
      rw [swapList_length]; omega
    exact (ih _ hlen).trans hswap

theorem jsShuffle_perm (rand : Nat → Nat) (l : List Entry) :
    List.Perm (jsShuffle rand l) l := by
  unfold jsShuffle
  have hmap : l.map (fun x => x) = l := by simp
  rw [hmap]
  by_cases h : l.length = 0
  · simp [h]
  · rw [if_neg h]
    exact shuffleGo_perm rand (l.length - 1) l (by omega)

/-- C8 — getRandom$(n) over a collection of N ≥ n entries: the shuffle is a
permutation of the collection, the sample is exactly its first n elements
(so n distinct positions without repetition), and two calls with different
random draws may return different results. -/
theorem getRandom_sample (rand : Nat → Nat) (l : List Entry) (n : Nat)
    (h : n ≤ l.length) :
    List.Perm (jsShuffle rand l) l ∧
    (getRandom rand n l).length = n ∧
    getRandom rand n l ++ (jsShuffle rand l).drop n = jsShuffle rand l ∧
    ∃ r1 r2 : Nat → Nat,
      getRandom r1 2 [{ word := "a" }, { word := "b" }] ≠
        getRandom r2 2 [{ word := "a" }, { word := "b" }] := by
  have hperm := jsShuffle_perm rand l
  refine ⟨hperm, ?_, List.take_append_drop n _, fun m => (0 : Nat), fun m => (1 : Nat), ?_⟩
  · unfold getRandom
    rw [List.length_take, hperm.length_eq]
    omega
  · decide

theorem markFirst_clearFwi (ind : Nat) :
    ∀ es : List Entry, (markFirst ind es).map clearFwi = es.map clearFwi := by
  intro es
  induction es with
  | nil => rfl
  | cons e es ih =>
    rw [markFirst]
    by_cases h : e.sorting_form.head? == some ind
    · rw [if_pos h]
      simp [clearFwi]
    · rw [if_neg h]
      simp [ih]

theorem letterInit_foldl_clearFwi (letters : List String) :
    ∀ (ls : List String) (acc : List String × List Entry),
      ((ls.foldl
        (fun acc letter =>
          let ind := letters.indexOf letter
          if acc.2.any (fun e => e.sorting_form.head? == some ind) then
            (acc.1 ++ [letter], markFirst ind acc.2)
          else acc) acc).2).map clearFwi = (acc.2).map clearFwi := by
  intro ls
  induction ls with
  | nil => intro acc; rfl
  | cons l ls ih =>
    intro acc
    rw [List.foldl_cons, ih]
    by_cases h : acc.2.any (fun e => e.sorting_form.head? == some (letters.indexOf l))
    · simp only [if_pos h]
      exact markFirst_clearFwi _ _
    · simp only [if_neg h]

/-- C6 counterexample — two derived views do mutate: dataDict$ sorts the
snapshot array in place (the post-state is the reordered array), and
letterInit writes a firstWordIndex property onto the first matching entry. -/
theorem derived_views_mutate :
    (dataDictState [{ sorting_form := [1] }, { sorting_form := [0] }]).2 ≠
      [{ sorting_form := [1] }, { sorting_form := [0] }] ∧
    (letterInit ["a"] [{ sorting_form := [0] }]).2 ≠ [{ sorting_form := [0] }] := by
  exact ⟨by decide, by decide⟩

theorem findIdx_spec :
    ∀ (l : List Entry) (p : Entry → Bool), l.any p = true →
      ∃ a, l[l.findIdx p]? = some a ∧ p a = true := by
  intro l
  induction l with
  | nil => intro p h; simp at h
  | cons e l ih =>
    intro p h
    cases hp : p e with
    | true =>
      refine ⟨e, ?_, hp⟩
      simp [List.findIdx_cons, hp]
    | false =>
      have h' : l.any p = true := by simpa [List.any_cons, hp] using h
      obtain ⟨a, ha, hpa⟩ := ih p h'
      refine ⟨a, ?_, hpa⟩
      simp [List.findIdx_cons, hp, ha]

theorem findIdx_no_match :
    ∀ (l : List Entry) (p : Entry → Bool), l.any p = false →
      l.findIdx p = l.length := by
  intro l
  induction l with
  | nil => intro p _; rfl
  | cons e l ih =>
    intro p h
    have hp : p e = false := by
      cases hpe : p e with
      | true => rw [List.any_cons, hpe] at h; simp at h
      | false => rfl
    have h' : l.any p = false := by
      rw [List.any_cons, hp] at h
      simpa using h
    simp [List.findIdx_cons, hp, ih p h']

theorem markFirst_any (ind ind' : Nat) :
    ∀ es : List Entry,
      (markFirst ind' es).any (fun e => e.sorting_form.head? == some ind) =
        es.any (fun e => e.sorting_form.head? == some ind) := by
  intro es
  induction es with
  | nil => rfl
  | cons e es ih =>
    rw [markFirst]
    by_cases hp : (e.sorting_form.head? == some ind') = true
    · rw [if_pos hp]
      simp [List.any_cons]
    · rw [if_neg hp]
      simp [List.any_cons, ih]

theorem markFirst_findIdx (ind ind' : Nat) :
    ∀ es : List Entry,
      (markFirst ind' es).findIdx (fun e => e.sorting_form.head? == some ind) =
        es.findIdx (fun e => e.sorting_form.head? == some ind) := by
  intro es
  induction es with
  | nil => rfl
  | cons e es ih =>
    rw [markFirst]
    by_cases hp : (e.sorting_form.head? == some ind') = true
    · rw [if_pos hp]
      simp [List.findIdx_cons]
    · rw [if_neg hp]
      simp [List.findIdx_cons, ih]

theorem markFirst_annotates_raw (ind : Nat) :
    ∀ es : List Entry,
      es.any (fun e => e.sorting_form.head? == some ind) = true →
      ((markFirst ind es)[es.findIdx
          (fun e => e.sorting_form.head? == some ind)]?).map
        Entry.firstWordIndex = some (some ind) := by
  intro es
  induction es with
  | nil => intro h; simp at h
  | cons e es ih =>
    intro h
    by_cases hp : (e.sorting_form.head? == some ind) = true
    · rw [markFirst, if_pos hp]
      simp [List.findIdx_cons, hp]
    · have h' : es.any (fun e => e.sorting_form.head? == some ind) = true := by
        simpa [List.any_cons, hp] using h
      rw [markFirst, if_neg hp]
      simp only [List.findIdx_cons, hp, cond_false, List.getElem?_cons_succ]
      exact ih h'

theorem markFirst_get_other (ind : Nat) :
    ∀ (es : List Entry) (q : Nat),
      q ≠ es.findIdx (fun e => e.sorting_form.head? == some ind) →
      (markFirst ind es)[q]? = es[q]? := by
  intro es
  induction es with
  | nil => intro q _; rfl
  | cons e es ih =>
    intro q hq
    by_cases hp : (e.sorting_form.head? == some ind) = true
    · rw [markFirst, if_pos hp]
      have h0 : (e :: es).findIdx (fun e => e.sorting_form.head? == some ind) = 0 := by
        simp [List.findIdx_cons, hp]
      cases q with
      | zero => rw [h0] at hq; exact absurd rfl hq
      | succ q' => simp
    · rw [markFirst, if_neg hp]
      have hFi : (e :: es).findIdx (fun e => e.sorting_form.head? == some ind) =
          es.findIdx (fun e => e.sorting_form.head? == some ind) + 1 := by
        simp [List.findIdx_cons, hp]
      cases q with
      | zero => simp
      | succ q' =>
        have hq' : q' ≠ es.findIdx (fun e => e.sorting_form.head? == some ind) := by
          rw [hFi] at hq
          omega
        simp only [List.getElem?_cons_succ]
        exact ih q' hq'

theorem firstMarked_any (ind : Nat) (es : List Entry) (h : firstMarked ind es) :
    es.any (fun e => e.sorting_form.head? == some ind) = true := by
  by_contra hno
  have hfalse : es.any (fun e => e.sorting_form.head? == some ind) = false := by
    revert hno
    cases es.any (fun e => e.sorting_form.head? == some ind) <;> simp
  have hf := findIdx_no_match es _ hfalse
  unfold firstMarked at h
  rw [hf, List.getElem?_eq_none (Nat.le_refl _)] at h
  simp at h

theorem firstMarked_markFirst (ind ind' : Nat) (es : List Entry)
    (h : firstMarked ind es) : firstMarked ind (markFirst ind' es) := by
  have hany := firstMarked_any ind es h
  unfold firstMarked
  rw [markFirst_findIdx ind ind' es]
  by_cases hii : ind' = ind
  · subst hii
    exact markFirst_annotates_raw ind' es hany
  · have hne : es.findIdx (fun e => e.sorting_form.head? == some ind) ≠
        es.findIdx (fun e => e.sorting_form.head? == some ind') := by
      intro heq
      obtain ⟨a, ha, hpa⟩ := findIdx_spec es _ hany
      by_cases hany' : es.any (fun e => e.sorting_form.head? == some ind') = true
      · obtain ⟨a', ha', hpa'⟩ := findIdx_spec es _ hany'
        rw [← heq, ha] at ha'
        rw [← Option.some.inj ha'] at hpa'
        have e1 : a.sorting_form.head? = some ind := beq_iff_eq.mp hpa
        have e2 : a.sorting_form.head? = some ind' := beq_iff_eq.mp hpa'
        rw [e1] at e2
        exact hii (Option.some.inj e2).symm
      · have hfalse : es.any (fun e => e.sorting_form.head? == some ind') = false := by
          revert hany'
          cases es.any (fun e => e.sorting_form.head? == some ind') <;> simp
        have hlen := findIdx_no_match es _ hfalse
        rw [heq, hlen, List.getElem?_eq_none (Nat.le_refl _)] at ha
        exact Option.noConfusion ha
    rw [markFirst_get_other ind' es _ hne]
    exact h

theorem firstMarked_foldl (letters : List String) (ind : Nat) :
    ∀ (ls : List String) (acc : List String × List Entry),
      firstMarked ind acc.2 →
      firstMarked ind
        ((ls.foldl
          (fun acc letter =>
            let ind := letters.indexOf letter
            if acc.2.any (fun e => e.sorting_form.head? == some ind) then
              (acc.1 ++ [letter], markFirst ind acc.2)
            else acc) acc).2) := by
  intro ls
  induction ls with
  | nil => intro acc h; exact h
  | cons l ls ih =>
    intro acc h
    rw [List.foldl_cons]
    apply ih
    show firstMarked ind
      ((if acc.2.any (fun e => e.sorting_form.head? == some (letters.indexOf l)) then
          (acc.1 ++ [l], markFirst (letters.indexOf l) acc.2)
        else acc).2)
    by_cases hb : acc.2.any
        (fun e => e.sorting_form.head? == some (letters.indexOf l)) = true
    · rw [if_pos hb]
      exact firstMarked_markFirst ind _ acc.2 h
    · rw [if_neg (by simp [hb])]
      exact h

theorem firstMarked_established (letters : List String) :
    ∀ (ls : List String) (acc : List String × List Entry) (letter : String),
      letter ∈ ls →
      acc.2.any
        (fun e => e.sorting_form.head? == some (letters.indexOf letter)) = true →
      firstMarked (letters.indexOf letter)
        ((ls.foldl
          (fun acc letter =>
            let ind := letters.indexOf letter
            if acc.2.any (fun e => e.sorting_form.head? == some ind) then
              (acc.1 ++ [letter], markFirst ind acc.2)
            else acc) acc).2) := by
  intro ls
  induction ls with
  | nil => intro acc letter h _; simp at h
  | cons l ls ih =>
    intro acc letter hmem hany
    rw [List.foldl_cons]
    rcases List.mem_cons.mp hmem with rfl | hmem'
    · apply firstMarked_foldl
      show firstMarked (letters.indexOf letter)
        ((if acc.2.any
              (fun e => e.sorting_form.head? == some (letters.indexOf letter)) then
            (acc.1 ++ [letter], markFirst (letters.indexOf letter) acc.2)
          else acc).2)
      rw [if_pos hany]
      show firstMarked (letters.indexOf letter)
        (markFirst (letters.indexOf letter) acc.2)
      unfold firstMarked
      rw [markFirst_findIdx]
      exact markFirst_annotates_raw _ acc.2 hany
    · apply ih _ letter hmem'
      show ((if acc.2.any
              (fun e => e.sorting_form.head? == some (letters.indexOf l)) then
            (acc.1 ++ [l], markFirst (letters.indexOf l) acc.2)
          else acc).2).any
        (fun e => e.sorting_form.head? == some (letters.indexOf letter)) = true
      by_cases hb : acc.2.any
          (fun e => e.sorting_form.head? == some (letters.indexOf l)) = true
      · rw [if_pos hb]
        show (markFirst (letters.indexOf l) acc.2).any
          (fun e => e.sorting_form.head? == some (letters.indexOf letter)) = true
        rw [markFirst_any]
        exact hany
      · rw [if_neg (by simp [hb])]
        exact hany

theorem letterInit_foldl_findIdx (letters : List String) (ind : Nat) :
    ∀ (ls : List String) (acc : List String × List Entry),
      (((ls.foldl
          (fun acc letter =>
            let ind := letters.indexOf letter
            if acc.2.any (fun e => e.sorting_form.head? == some ind) then
              (acc.1 ++ [letter], markFirst ind acc.2)
            else acc) acc).2).findIdx
        (fun e => e.sorting_form.head? == some ind)) =
      acc.2.findIdx (fun e => e.sorting_form.head? == some ind) := by
  intro ls
  induction ls with
  | nil => intro acc; rfl
  | cons l ls ih =>
    intro acc
    rw [List.foldl_cons, ih]
    show ((if acc.2.any
            (fun e => e.sorting_form.head? == some (letters.indexOf l)) then
          (acc.1 ++ [l], markFirst (letters.indexOf l) acc.2)
        else acc).2).findIdx (fun e => e.sorting_form.head? == some ind) =
      acc.2.findIdx (fun e => e.sorting_form.head? == some ind)
    by_cases hb : acc.2.any
        (fun e => e.sorting_form.head? == some (letters.indexOf l)) = true
    · rw [if_pos hb]
      exact markFirst_findIdx ind (letters.indexOf l) acc.2
    · rw [if_neg (by simp [hb])]

/-- C6 (amended) — The window slice, the (service-variant) random sample and
the category partition leave the snapshot unchanged (slice copies, shuffle
operates on array.map(x => x), categories builds a fresh object); the sorted
view replaces the snapshot by its in-place sorted reordering; and the letter
index changes entries only in their firstWordIndex annotation: entry order and
all other fields are unchanged, and for every letter some entry starts with,
the first entry with that leading sorting index (at its unchanged position)
carries firstWordIndex = the letter's index. -/
theorem derived_views_mutation_amended (entries : List Entry) (i x n : Nat)
    (rand : Nat → Nat) (letters : List String) (browseAudio : Bool) :
    (getSliceState i x entries).2 = entries ∧
    (getRandomState rand n entries).2 = entries ∧
    (categoriesState browseAudio entries).2 = entries ∧
    (dataDictState entries).2 = dictSort entries ∧
    ((letterInit letters entries).2).map clearFwi = entries.map clearFwi ∧
    (∀ letter ∈ letters,
      entries.any
        (fun e => e.sorting_form.head? == some (letters.indexOf letter)) = true →
      ((letterInit letters entries).2).findIdx
          (fun e => e.sorting_form.head? == some (letters.indexOf letter)) =
        entries.findIdx
          (fun e => e.sorting_form.head? == some (letters.indexOf letter)) ∧
      firstMarked (letters.indexOf letter) (letterInit letters entries).2) := by
  refine ⟨rfl, rfl, rfl, rfl,
    letterInit_foldl_clearFwi letters letters ([], entries), ?_⟩
  intro letter hmem hany
  exact ⟨letterInit_foldl_findIdx letters (letters.indexOf letter) letters ([], entries),
    firstMarked_established letters letters ([], entries) letter hmem hany⟩

/-- C6 witness — one letter "a" and one entry starting with it: applying the
amended theorem shows the first (and only) entry ends up annotated with
firstWordIndex = 0 at its unchanged position. -/
theorem derived_views_mutation_amended_witness :
    "a" ∈ ["a"] ∧
    ([{ sorting_form := [0] }] : List Entry).any
      (fun e => e.sorting_form.head? == some ((["a"] : List String).indexOf "a")) = true ∧
    firstMarked ((["a"] : List String).indexOf "a")
      (letterInit ["a"] [{ sorting_form := [0] }]).2 := by
  refine ⟨by decide, by decide, ?_⟩
  exact ((derived_views_mutation_amended [{ sorting_form := [0] }] 0 0 0
    (fun _ => 0) ["a"] false).2.2.2.2.2 "a" (by decide) (by decide)).2
theorem getKey_mapOverwrite_ne (k k' : String) (v : List Entry) (hne : k' ≠ k) :
    ∀ m : List (String × List Entry),
      getKey (m.map (fun q => if q.1 == k then (k, v) else q)) k' = getKey m k' := by
  intro m
  induction m with
  | nil => rfl
  | cons q m ih =>
    simp only [List.map_cons]
    by_cases hq : q.1 = k
    · have hkk : (k == k') = false := by
        simp only [beq_eq_false_iff_ne, ne_eq]
        exact fun hc => hne hc.symm
      have hqk : (q.1 == k') = false := by
        simp only [beq_eq_false_iff_ne, ne_eq, hq]
        exact fun hc => hne hc.symm
      rw [if_pos (beq_iff_eq.mpr hq)]
      simp only [getKey, List.find?_cons, hkk, hqk]
      exact ih
    · rw [if_neg (by simp [hq])]
      by_cases hq1 : q.1 = k'
      · have hqk : (q.1 == k') = true := beq_iff_eq.mpr hq1
        simp only [getKey, List.find?_cons, hqk]
      · have hqk : (q.1 == k') = false := by simp [hq1]
        simp only [getKey, List.find?_cons, hqk]
        exact ih

theorem getKey_append_single_ne (k k' : String) (v : List Entry) (hne : k' ≠ k) :
    ∀ m : List (String × List Entry),
      getKey (m ++ [(k, v)]) k' = getKey m k' := by
  intro m
  induction m with
  | nil =>
    have hkk : (k == k') = false := by
      simp only [beq_eq_false_iff_ne, ne_eq]
      exact fun hc => hne hc.symm
    simp only [List.nil_append, getKey, List.find?_cons, hkk, List.find?_nil]
  | cons q m ih =>
    rw [List.cons_append]
    by_cases hq1 : q.1 = k'
    · have hqk : (q.1 == k') = true := beq_iff_eq.mpr hq1
      simp only [getKey, List.find?_cons, hqk]
    · have hqk : (q.1 == k') = false := by simp [hq1]
      simp only [getKey, List.find?_cons, hqk]
      exact ih

theorem getKey_setKey_ne (m : List (String × List Entry)) (k k' : String)
    (v : List Entry) (hne : k' ≠ k) :
    getKey (setKey m k v) k' = getKey m k' := by
  unfold setKey
  by_cases h : m.any (fun p => p.1 == k)
  · rw [if_pos h]
    exact getKey_mapOverwrite_ne k k' v hne m
  · rw [if_neg h]
    exact getKey_append_single_ne k k' v hne m

theorem getKey_mapOverwrite_self (k : String) (v : List Entry) :
    ∀ m : List (String × List Entry),
      m.any (fun p => p.1 == k) = true →
      getKey (m.map (fun q => if q.1 == k then (k, v) else q)) k = some v := by
  intro m
  induction m with
  | nil => intro h; simp at h
  | cons q m ih =>
    intro h
    simp only [List.map_cons]
    by_cases hq : q.1 = k
    · rw [if_pos (beq_iff_eq.mpr hq)]
      have hkk : (k == k) = true := beq_iff_eq.mpr rfl
      simp only [getKey, List.find?_cons, hkk]
      rfl
    · have hqk : (q.1 == k) = false := by simp [hq]
      rw [if_neg (by simp [hq])]
      have hm : m.any (fun p => p.1 == k) = true := by
        simpa [List.any_cons, hqk] using h
      simp only [getKey, List.find?_cons, hqk]
      exact ih hm

theorem getKey_append_single_self (k : String) (v : List Entry) :
    ∀ m : List (String × List Entry),
      m.any (fun p => p.1 == k) = false →
      getKey (m ++ [(k, v)]) k = some v := by
  intro m
  induction m with
  | nil =>
    intro _
    have hkk : (k == k) = true := beq_iff_eq.mpr rfl
    simp only [List.nil_append, getKey, List.find?_cons, hkk]
    rfl
  | cons q m ih =>
    intro h
    simp only [List.any_cons, Bool.or_eq_false_iff] at h
    rw [List.cons_append]
    simp only [getKey, List.find?_cons, h.1]
    exact ih h.2

theorem getKey_setKey_self (m : List (String × List Entry)) (k : String)
    (v : List Entry) :
    getKey (setKey m k v) k = some v := by
  unfold setKey
  cases h : m.any (fun p => p.1 == k) with
  | true =>
    rw [if_pos rfl]
    exact getKey_mapOverwrite_self k v m h
  | false =>
    rw [if_neg (by simp)]
    exact getKey_append_single_self k v m h

theorem mem_uniqAux [BEq α] [LawfulBEq α] :
    ∀ (l seen : List α) (x : α),
      x ∈ uniqAux l seen ↔ (x ∈ l ∧ x ∉ seen) := by
  intro l
  induction l with
  | nil => intro seen x; simp [uniqAux]
  | cons y l ih =>
    intro seen x
    rw [uniqAux]
    by_cases hy : y ∈ seen
    · rw [if_pos (by simpa [List.contains, List.elem_iff] using hy)]
      rw [ih]
      constructor
      · rintro ⟨hl, hs⟩
        exact ⟨List.mem_cons_of_mem _ hl, hs⟩
      · rintro ⟨hl, hs⟩
        rcases List.mem_cons.mp hl with rfl | hl
        · exact absurd hy hs
        · exact ⟨hl, hs⟩
    · rw [if_neg (by simpa [List.contains, List.elem_iff] using hy)]
      rw [List.mem_cons, ih]
      constructor
      · rintro (rfl | ⟨hl, hs⟩)
        · exact ⟨List.mem_cons_self _ _, hy⟩
        · refine ⟨List.mem_cons_of_mem _ hl, fun hc => hs ?_⟩
          exact List.mem_cons_of_mem _ hc
      · rintro ⟨hl, hs⟩
        rcases List.mem_cons.mp hl with rfl | hl
        · exact Or.inl rfl
        · by_cases hxy : x = y
          · exact Or.inl hxy
          · refine Or.inr ⟨hl, fun hc => ?_⟩
            rcases List.mem_cons.mp hc with rfl | hc
            · exact hxy rfl
            · exact hs hc

theorem mem_ljUniq [BEq α] [LawfulBEq α] (l : List α) (x : α) :
    x ∈ ljUniq l ↔ x ∈ l := by
  unfold ljUniq
  rw [mem_uniqAux]
  simp

theorem getKey_addSourceKeys_notmem (entries : List Entry) (k : String) :
    ∀ (ks : List String) (m : List (String × List Entry)), k ∉ ks →
      getKey (addSourceKeys entries ks m) k = getKey m k := by
  intro ks
  induction ks with
  | nil => intro m _; rfl
  | cons k' ks ih =>
    intro m hk
    rw [addSourceKeys]
    have hk' : k ∉ ks := fun hc => hk (List.mem_cons_of_mem _ hc)
    have hne : k ≠ k' := fun hc => hk (hc ▸ List.mem_cons_self _ _)
    rw [ih _ hk', getKey_setKey_ne _ _ _ _ hne]

theorem getKey_addThemeKeys_notmem (entries : List Entry) (k : String) :
    ∀ (cs : List (Option String)) (m : List (String × List Entry)),
      some k ∉ cs →
      getKey (addThemeKeys entries cs m) k = getKey m k := by
  intro cs
  induction cs with
  | nil => intro m _; rfl
  | cons c cs ih =>
    intro m hk
    have hk' : some k ∉ cs := fun hc => hk (List.mem_cons_of_mem _ hc)
    match c with
    | none => rw [addThemeKeys]; exact ih _ hk'
    | some c =>
      have hne : k ≠ c := fun hc => hk (hc ▸ List.mem_cons_self _ _)
      rw [addThemeKeys]
      rw [ih _ hk']
      by_cases hc0 : c = ""
      · rw [if_pos hc0]
      · rw [if_neg hc0, getKey_setKey_ne _ _ _ _ hne]

theorem getKey_addThemeKeys_mem (entries : List Entry) (c : String)
    (hc : c ≠ "") :
    ∀ (cs : List (Option String)) (m : List (String × List Entry)),
      some c ∈ cs →
      getKey (addThemeKeys entries cs m) c =
        some (entries.filter (fun e => e.theme == some c)) := by
  intro cs
  induction cs with
  | nil => intro m h; simp at h
  | cons c' cs ih =>
    intro m h
    by_cases hmem : some c ∈ cs
    · match c' with
      | none => rw [addThemeKeys]; exact ih _ hmem
      | some c' => rw [addThemeKeys]; exact ih _ hmem
    · have hc' : c' = some c := by
        rcases List.mem_cons.mp h with he | hmem2
        · exact he.symm
        · exact absurd hmem2 hmem
      subst hc'
      rw [addThemeKeys, if_neg hc]
      rw [getKey_addThemeKeys_notmem entries c cs _ hmem]
      exact getKey_setKey_self _ _ _

theorem jsToLower_ne_empty (t : String) (h : t ≠ "") : jsToLower t ≠ "" := by
  intro hc
  apply h
  have hdata : t.data.map Char.toLower = [] := congrArg String.data hc
  have hnil : t.data = [] := List.map_eq_nil.mp hdata
  exact String.ext (by rw [hnil])

/-- C3 (amended) — Provided no entry's source tag and no entry's (lowercased,
truthy) theme tag is literally "audio", the mapping of categories$ has an
"audio" key if and only if at least one entry has audio and (the audio
fraction is below 75% or the browseAudio flag is set), and then the key maps
exactly to the entries with audio.  [The proviso is forced: a source or theme
named "audio" creates the key regardless of the audio condition.] -/
theorem categories_audio_key (browseAudio : Bool) (entries : List Entry)
    (hsrc : ∀ e ∈ entries, e.source ≠ "audio")
    (hthm : ∀ e ∈ entries, themeVal e ≠ some "audio") :
    getKey (categories browseAudio entries) "audio" =
      if 0 < (entries.filter hasAudio).length ∧
          (4 * (entries.filter hasAudio).length < 3 * entries.length ∨
            browseAudio = true)
      then some (entries.filter hasAudio) else none := by
  simp only [categories]
  by_cases hcond : 0 < (entries.filter hasAudio).length ∧
      (4 * (entries.filter hasAudio).length < 3 * entries.length ∨
        browseAudio = true)
  · rw [if_pos hcond, if_pos hcond, getKey_setKey_self]
  · rw [if_neg hcond, if_neg hcond]
    have h1 : Option.some "audio" ∉
        List.insertionSort (fun a b => optLeB a b = true)
          (ljUniq (entries.map themeVal)) := by
      intro hc
      have hc2 : some "audio" ∈ ljUniq (entries.map themeVal) :=
        ((List.perm_insertionSort _ _).mem_iff).mp hc
      have hc3 : some "audio" ∈ entries.map themeVal := (mem_ljUniq _ _).mp hc2
      obtain ⟨e, he, hev⟩ := List.mem_map.mp hc3
      exact hthm e he hev
    rw [getKey_addThemeKeys_notmem entries "audio" _ _ h1]
    have h2 : "audio" ∉ ljUniq (entries.map (fun x => x.source)) := by
      intro hc
      obtain ⟨e, he, hev⟩ := List.mem_map.mp ((mem_ljUniq _ _).mp hc)
      exact hsrc e he hev
    rw [getKey_addSourceKeys_notmem entries "audio" _ _ h2]
    rfl

/-- C3 counterexample — a single entry whose source tag is "audio" and that
has no audio: the categories mapping contains the key "audio" (created by the
source partition) although no entry has audio, refuting the unconditional
if-and-only-if. -/
theorem categories_audio_key_cx :
    getKey (categories false [{ source := "audio" }]) "audio" =
      some [{ source := "audio" }] ∧
    ([{ source := "audio" }] : List Entry).filter hasAudio = [] := by
  exact ⟨by decide, by decide⟩

/-- C3 witness — one entry with audio and one without (flag off): the audio
fraction 1/2 is below 3/4, so the key is present and maps to the audio
entry. -/
theorem categories_audio_key_witness :
    getKey
      (categories false
        [{ word := "w", audio := some [{ filename := "f.mp3" }] }, { word := "x" }])
      "audio" =
      if 0 < (([{ word := "w", audio := some [{ filename := "f.mp3" }] },
            { word := "x" }] : List Entry).filter hasAudio).length ∧
          (4 * (([{ word := "w", audio := some [{ filename := "f.mp3" }] },
              { word := "x" }] : List Entry).filter hasAudio).length <
            3 * ([{ word := "w", audio := some [{ filename := "f.mp3" }] },
              { word := "x" }] : List Entry).length ∨ false = true)
      then some (([{ word := "w", audio := some [{ filename := "f.mp3" }] },
        { word := "x" }] : List Entry).filter hasAudio) else none :=
  categories_audio_key false
    [{ word := "w", audio := some [{ filename := "f.mp3" }] }, { word := "x" }]
    (by decide) (by decide)

/-- C5 (amended) — For every entry whose theme is a truthy string t (with
lowercase form not colliding with the "audio" pseudo-category), the categories
mapping has a key equal to the lowercase form of t, and that key maps to
exactly the entries whose theme is literally (case-sensitively) equal to the
lowercased value — so the originating entry is a member if and only if its
theme was already lowercase. -/
theorem categories_theme_key (browseAudio : Bool) (entries : List Entry)
    (e : Entry) (t : String) (he : e ∈ entries) (ht : e.theme = some t)
    (ht0 : t ≠ "") (hta : jsToLower t ≠ "audio") :
    getKey (categories browseAudio entries) (jsToLower t) =
      some (entries.filter (fun x => x.theme == some (jsToLower t))) ∧
    (e ∈ entries.filter (fun x => x.theme == some (jsToLower t)) ↔
      e.theme = some (jsToLower t)) := by
  constructor
  · simp only [categories]
    have hmem : some (jsToLower t) ∈
        List.insertionSort (fun a b => optLeB a b = true)
          (ljUniq (entries.map themeVal)) := by
      rw [(List.perm_insertionSort _ _).mem_iff, mem_ljUniq]
      exact List.mem_map.mpr ⟨e, he, by simp [themeVal, ht, ht0]⟩
    have hval := getKey_addThemeKeys_mem entries (jsToLower t)
      (jsToLower_ne_empty t ht0) _
      (addSourceKeys entries (ljUniq (entries.map (fun x => x.source))) []) hmem
    by_cases hcond : 0 < (entries.filter hasAudio).length ∧
        (4 * (entries.filter hasAudio).length < 3 * entries.length ∨
          browseAudio = true)
    · rw [if_pos hcond, getKey_setKey_ne _ _ _ _ hta, hval]
    · rw [if_neg hcond, hval]
  · rw [List.mem_filter]
    constructor
    · rintro ⟨_, hb⟩
      exact beq_iff_eq.mp hb
    · intro hb
      exact ⟨he, beq_iff_eq.mpr hb⟩

/-- C5 counterexample — a single entry with theme "Animals": the key
"animals" exists but maps to the empty list (the filter compares the original
theme "Animals" against the lowercased key), so the entry is not a member of
the list under its theme key. -/
theorem categories_theme_key_cx :
    ¬ ∃ l, getKey (categories false [{ theme := some "Animals", source := "s" }])
        "animals" = some l ∧
      ({ theme := some "Animals", source := "s" } : Entry) ∈ l := by
  rintro ⟨l, h1, h2⟩
  have h0 : getKey (categories false [{ theme := some "Animals", source := "s" }])
      "animals" = some ([] : List Entry) := by decide
  rw [h0] at h1
  rw [← Option.some.inj h1] at h2
  exact List.not_mem_nil _ h2

/-- C5 witness — an entry whose theme "animals" is already lowercase: the key
"animals" maps to the filtered list and the entry is a member. -/
theorem categories_theme_key_witness :
    getKey (categories false [{ theme := some "animals", source := "s" }])
      (jsToLower "animals") =
      some (([{ theme := some "animals", source := "s" }] : List Entry).filter
        (fun x => x.theme == some (jsToLower "animals"))) ∧
    (({ theme := some "animals", source := "s" } : Entry) ∈
        ([{ theme := some "animals", source := "s" }] : List Entry).filter
          (fun x => x.theme == some (jsToLower "animals")) ↔
      ({ theme := some "animals", source := "s" } : Entry).theme =
        some (jsToLower "animals")) :=
  categories_theme_key false [{ theme := some "animals", source := "s" }]
    { theme := some "animals", source := "s" } "animals"
    (List.mem_singleton.mpr rfl) rfl (by decide) (by decide)

/-- C8 witness — a three-element collection, n = 2, a concrete random stream:
the sample has exactly 2 elements. -/
theorem getRandom_sample_witness :
    2 ≤ ([{ word := "a" }, { word := "b" }, { word := "c" }] : List Entry).length ∧
    (getRandom (fun _ => 0) 2
      [{ word := "a" }, { word := "b" }, { word := "c" }]).length = 2 :=
  ⟨by decide,
    (getRandom_sample (fun _ => 0)
      [{ word := "a" }, { word := "b" }, { word := "c" }] 2 (by decide)).2.1⟩
